import Mathlib

/-!
Verification of the finite-automaton engine (`Automata.py`) against its
natural-language specification.  The Python class `FiniteAutomaton` is
shallowly embedded: Python sets become lists used up to membership,
Python dicts become association lists preserving insertion order, and
the one fallible operation (`determinize`, which can raise
`StopIteration` on an empty start-state set) returns `Option`.
-/

/-- The literal epsilon marker used throughout the source file
(the mojibake two-character string for the UTF-8 bytes of "ε"). -/
def epsilon : String := "Îµ"

/-- Association-list lookup: first entry with the given key
(Python dict lookup; Python dicts never hold a key twice). -/
def dictGet {α β : Type} [DecidableEq α] : List (α × β) → α → Option β
  | [], _ => none
  | (k, v) :: rest, k' => if k' = k then some v else dictGet rest k'

/-- Association-list update: replace the value at the first matching key,
or append a fresh entry (Python dicts keep insertion position on update). -/
def dictSet {α β : Type} [DecidableEq α] : List (α × β) → α → β → List (α × β)
  | [], k, v => [(k, v)]
  | (k0, v0) :: rest, k, v =>
      if k = k0 then (k0, v) :: rest else (k0, v0) :: dictSet rest k v

/-- Key-membership test of an association list (`k in d` on a Python dict). -/
def containsKey {α β : Type} [DecidableEq α] (d : List (α × β)) (k : α) : Bool :=
  d.any (fun p => decide (p.1 = k))

/-- Python `s.add(x)` on a set, with lists read up to membership. -/
def setAdd (l : List String) (x : String) : List String :=
  if x ∈ l then l else l ++ [x]

/-- Python `s.update(t)` on sets. -/
def listUnion (a b : List String) : List String :=
  b.foldl setAdd a

/-- Reversed decimal digits, fuel-structured so the kernel can reduce it
(`n + 1` fuel always suffices since `n / 10` shrinks). -/
def natDigitsRevAux : Nat → Nat → List Char
  | 0, _ => []
  | fuel + 1, n =>
      if n < 10 then [Nat.digitChar n]
      else Nat.digitChar (n % 10) :: natDigitsRevAux fuel (n / 10)

/-- Reversed decimal digits of a natural number (the digits Python's
`f'q{n}'` formatting prints, least significant first). -/
def natDigitsRev (n : Nat) : List Char :=
  natDigitsRevAux (n + 1) n

/-- Decimal rendering of a natural number, as Python's `str`/f-string does. -/
def natToStr (n : Nat) : String :=
  String.mk (natDigitsRev n).reverse

/-- The synthesized state name `f'q{n}'` used by `determinize`. -/
def stateName (n : Nat) : String :=
  "q" ++ natToStr n

/-- The automaton model: `states`, `alphabet`, `start_state` and
`accept_states` are Python sets (lists up to membership); `transitions`
is the two-level dict state ↦ symbol ↦ set of destination states. -/
structure FiniteAutomaton where
  states : List String
  alphabet : List String
  start_state : List String
  accept_states : List String
  transitions : List (String × List (String × List String))
deriving DecidableEq, Repr

/-- Python `FiniteAutomaton.__init__`: all collections empty. -/
def emptyFA : FiniteAutomaton :=
  { states := [], alphabet := [], start_state := [], accept_states := [], transitions := [] }

/-- Method `add_state`. -/
def add_state (fa : FiniteAutomaton) (s : String) : FiniteAutomaton :=
  { fa with states := setAdd fa.states s }

/-- Method `add_symbol`. -/
def add_symbol (fa : FiniteAutomaton) (a : String) : FiniteAutomaton :=
  { fa with alphabet := setAdd fa.alphabet a }

/-- Method `add_start_state`. -/
def add_start_state (fa : FiniteAutomaton) (s : String) : FiniteAutomaton :=
  { fa with start_state := setAdd fa.start_state s }

/-- Method `add_accept_state`. -/
def add_accept_state (fa : FiniteAutomaton) (s : String) : FiniteAutomaton :=
  { fa with accept_states := setAdd fa.accept_states s }

/-- Method `add_transition`: create the missing dict/set layers, then add the
destination. -/
def add_transition (fa : FiniteAutomaton) (f sym t : String) : FiniteAutomaton :=
  let m := (dictGet fa.transitions f).getD []
  let ds := (dictGet m sym).getD []
  { fa with transitions := dictSet fa.transitions f (dictSet m sym (setAdd ds t)) }

/-- The destination set of the pair `(s, a)` (empty when no entry exists). -/
def destinations (fa : FiniteAutomaton) (s a : String) : List String :=
  (dictGet ((dictGet fa.transitions s).getD []) a).getD []

/-- Python membership test on the symbol dict of s: the pair (s, a) has an entry. -/
def hasEntry (fa : FiniteAutomaton) (s a : String) : Bool :=
  containsKey ((dictGet fa.transitions s).getD []) a

/-- Method `is_deterministic`: no alphabet symbol with more than one destination
at any state holding transitions, and no state with an epsilon entry. -/
def is_deterministic (fa : FiniteAutomaton) : Bool :=
  fa.transitions.all (fun p =>
    fa.alphabet.all (fun a =>
      match dictGet p.2 a with
      | some ds => decide (ds.length ≤ 1)
      | none => true) && !(containsKey p.2 epsilon))

/-- Method `is_complete`: every state has a transitions entry holding every
alphabet symbol (the epsilon symbol is NOT excluded by the code). -/
def is_complete (fa : FiniteAutomaton) : Bool :=
  fa.states.all (fun s =>
    match dictGet fa.transitions s with
    | none => false
    | some m => fa.alphabet.all (fun a => containsKey m a))

/-- Method `is_standard`: exactly one start state. -/
def is_standard (fa : FiniteAutomaton) : Bool :=
  decide (fa.start_state.length = 1)

/-- Method `fa_type`: the classification string. -/
def fa_type (fa : FiniteAutomaton) : String :=
  let l := (if is_deterministic fa then ["deterministic"] else [])
        ++ (if is_complete fa then ["complete"] else [])
        ++ (if is_standard fa then ["standard"] else [])
  if l.isEmpty then "not recognized" else String.intercalate " " l

/-- One turn of the state loop of `complete`: capture the state's current
symbol dict, then route every alphabet symbol absent from it to the sink
`"p"`. -/
def routeState (alphabet : List String) (acc : FiniteAutomaton) (s : String) : FiniteAutomaton :=
  let tr := (dictGet acc.transitions s).getD []
  alphabet.foldl (fun acc2 sym =>
    if containsKey tr sym then acc2 else add_transition acc2 s sym "p") acc

/-- Method `complete`: if incomplete, add the sink `"p"`, route every missing
(state, symbol) pair to it, then give the sink a self-loop on every
symbol. -/
def complete (fa : FiniteAutomaton) : FiniteAutomaton :=
  if is_complete fa then fa
  else
    let fa1 := add_state fa "p"
    let fa2 := fa1.states.foldl (routeState fa1.alphabet) fa1
    fa1.alphabet.foldl (fun acc sym => add_transition acc "p" sym "p") fa2

/-- One turn of the start-state loop of `standardize`: copy every
(symbol, destination) of the given original start state onto `"i"`. -/
def copyStart (acc : FiniteAutomaton) (s : String) : FiniteAutomaton :=
  ((dictGet acc.transitions s).getD []).foldl
    (fun acc2 p => p.2.foldl (fun acc3 d => add_transition acc3 "i" p.1 d) acc2) acc

/-- Method `standardize`: if not standard, add the new start `"i"`, copy each
original start state's outgoing transitions onto it, and make `{"i"}`
the start-state set. -/
def standardize (fa : FiniteAutomaton) : FiniteAutomaton :=
  if is_standard fa then fa
  else
    let fa1 := add_state fa "i"
    let fa2 := fa1.start_state.foldl copyStart fa1
    { fa2 with start_state := ["i"] }

/-- The direct epsilon destinations of a state
(the chained transitions lookup with the epsilon key). -/
def epsDests (fa : FiniteAutomaton) (s : String) : List String :=
  (dictGet ((dictGet fa.transitions s).getD []) epsilon).getD []

/-- All epsilon destinations recorded anywhere in the transition dict;
a bound on what the closure worklist can ever add. -/
def allEpsDests (fa : FiniteAutomaton) : List String :=
  fa.transitions.foldr (fun p acc => ((dictGet p.2 epsilon).getD []) ++ acc) []

/-- Push each not-yet-closed epsilon destination onto both the closure
and the stack (the inner `for next_state in epsilon_transitions` loop). -/
def ecPush : List String → List String → List String → List String × List String
  | cl, st, [] => (cl, st)
  | cl, st, d :: ds =>
      if d ∈ cl then ecPush cl st ds else ecPush (d :: cl) (d :: st) ds

/-- The `while stack:` loop of `epsilon_closure`, with explicit fuel
(each iteration pops one state; `ecFuel` makes the fuel suffice). -/
def ecLoop (fa : FiniteAutomaton) : Nat → List String → List String → List String
  | 0, cl, _ => cl
  | _ + 1, cl, [] => cl
  | fuel + 1, cl, s :: st =>
      let p := ecPush cl st (epsDests fa s)
      ecLoop fa fuel p.1 p.2

/-- Fuel sufficient for `ecLoop`: one initial pop plus one per epsilon
destination ever pushable. -/
def ecFuel (fa : FiniteAutomaton) : Nat :=
  1 + (allEpsDests fa).length

/-- Method `epsilon_closure`: depth-first worklist traversal of epsilon edges,
seeded with the state itself. -/
def epsilon_closure (fa : FiniteAutomaton) (s : String) : List String :=
  ecLoop fa (ecFuel fa) [s] [s]

/-- Lexicographic comparison of character lists by code point. -/
def charListLe : List Char → List Char → Bool
  | [], _ => true
  | _ :: _, [] => false
  | a :: as, b :: bs =>
      if a = b then charListLe as bs else decide (a.toNat < b.toNat)

/-- String comparison used to canonicalize subset keys. -/
def strLeb (a b : String) : Bool :=
  charListLe a.data b.data

/-- Sorted insertion for `sortStrings`. -/
def insertSorted (x : String) : List String → List String
  | [] => [x]
  | y :: ys => if strLeb x y then x :: y :: ys else y :: insertSorted x ys

/-- Insertion sort over strings. -/
def sortStrings : List String → List String
  | [] => []
  | x :: xs => insertSorted x (sortStrings xs)

/-- Canonical form of a `frozenset` of states: duplicates removed,
sorted, so two subsets with the same members compare equal. -/
def canon (l : List String) : List String :=
  sortStrings l.dedup

/-- Expand a set of states by the precomputed epsilon closures
(`epsilon_closures[state]` raises KeyError — `none` — on an unknown
state). -/
def epsExpand (closures : List (String × List String)) (l : List String) : Option (List String) :=
  l.foldl (fun o s =>
    match o with
    | none => none
    | some ne =>
      match dictGet closures s with
      | none => none
      | some c => some (listUnion ne c)) (some [])

/-- One turn of the `for symbol in self.alphabet` body of the
determinization loop: collect direct destinations of the current subset,
epsilon-expand them, and register/enqueue the resulting subset when it
is new. -/
def detStep (fa : FiniteAutomaton) (closures : List (String × List String))
    (cur : List String) (curName : String) (sym : String)
    (mapping : List (List String × String)) (qs : List (List String))
    (acc : FiniteAutomaton) :
    Option (List (List String × String) × List (List String) × FiniteAutomaton) :=
  let nexts := cur.foldl (fun ns s => listUnion ns (destinations fa s sym)) []
  match epsExpand closures nexts with
  | none => none
  | some nextEps =>
    if nextEps.isEmpty then some (mapping, qs, acc)
    else
      let key := canon nextEps
      match dictGet mapping key with
      | some name => some (mapping, qs, add_transition acc curName sym name)
      | none =>
          let name := stateName mapping.length
          let acc2 := add_state acc name
          let acc3 := if key.any (fun x => decide (x ∈ fa.accept_states))
                      then add_accept_state acc2 name else acc2
          some (mapping ++ [(key, name)], qs ++ [key], add_transition acc3 curName sym name)

/-- The `for symbol in self.alphabet` loop of the determinization
algorithm, one `detStep` per alphabet symbol. -/
def detSymbols (fa : FiniteAutomaton) (closures : List (String × List String))
    (cur : List String) (curName : String) :
    List (List String × String) → List (List String) → FiniteAutomaton → List String →
    Option (List (List String × String) × List (List String) × FiniteAutomaton)
  | mapping, qs, acc, [] => some (mapping, qs, acc)
  | mapping, qs, acc, sym :: rest =>
      match detStep fa closures cur curName sym mapping qs acc with
      | none => none
      | some (mapping', qs', acc') =>
          detSymbols fa closures cur curName mapping' qs' acc' rest

/-- The `while queue:` loop of `determinize`, with explicit fuel. -/
def detLoop (fa : FiniteAutomaton) (closures : List (String × List String)) :
    Nat → List (List String × String) → List (List String) → FiniteAutomaton →
    Option FiniteAutomaton
  | 0, _, _, _ => none
  | _ + 1, _, [], acc => some acc
  | fuel + 1, mapping, cur :: qs, acc =>
      match dictGet mapping cur with
      | none => none
      | some curName =>
        let acc1 := if cur.any (fun s => decide (s ∈ fa.accept_states))
                    then add_accept_state acc curName else acc
        match detSymbols fa closures cur curName mapping qs acc1 fa.alphabet with
        | none => none
        | some (mapping', qs', acc') => detLoop fa closures fuel mapping' qs' acc'

/-- Generous fuel for the subset-construction loop. -/
def detFuel (fa : FiniteAutomaton) : Nat :=
  2 ^ (fa.states.length + fa.transitions.length + 2)

/-- Method `determinize`: return the automaton unchanged when already
deterministic; otherwise run the subset construction.  `none` models the
`StopIteration` raised by `next(iter(self.start_state))` on an empty
start-state set (and the KeyError of `epsilon_closures[state]` on a
destination outside `states`). -/
def determinize (fa : FiniteAutomaton) : Option FiniteAutomaton :=
  if is_deterministic fa then some fa
  else
    let closures := fa.states.map (fun s => (s, epsilon_closure fa s))
    match fa.start_state with
    | [] => none
    | s0 :: _ =>
      let key0 := canon (epsilon_closure fa s0)
      match detLoop fa closures (detFuel fa) [(key0, "q0")] [key0] emptyFA with
      | none => none
      | some acc => some (add_start_state acc "q0")

/-- Modelled from the spec's words for the refinement claim on
classification: the ordered labels whose predicate holds, space-joined,
or the literal "not recognized" when none hold. -/
def fa_type_spec (fa : FiniteAutomaton) : String :=
  let labels := [("deterministic", is_deterministic fa),
                 ("complete", is_complete fa),
                 ("standard", is_standard fa)]
  let chosen := (labels.filter (fun p => p.2)).map (fun p => p.1)
  if chosen = [] then "not recognized" else String.intercalate " " chosen

/-! ## Basic lemmas on the dict/set helpers -/

lemma mem_setAdd {a x : String} {l : List String} :
    a ∈ setAdd l x ↔ a ∈ l ∨ a = x := by
  unfold setAdd
  split
  · next h => exact ⟨Or.inl, fun h2 => h2.elim id (fun e => e ▸ h)⟩
  · simp

lemma setAdd_of_not_mem {x : String} {l : List String} (h : x ∉ l) :
    setAdd l x = l ++ [x] := by
  unfold setAdd
  simp [h]

lemma setAdd_of_mem {x : String} {l : List String} (h : x ∈ l) :
    setAdd l x = l := by
  unfold setAdd
  simp [h]

lemma mem_setAdd_self {x : String} {l : List String} : x ∈ setAdd l x :=
  mem_setAdd.mpr (Or.inr rfl)

lemma mem_setAdd_of_mem {a x : String} {l : List String} (h : a ∈ l) :
    a ∈ setAdd l x :=
  mem_setAdd.mpr (Or.inl h)

lemma mem_listUnion {a : String} {l m : List String} :
    a ∈ listUnion l m ↔ a ∈ l ∨ a ∈ m := by
  induction m generalizing l with
  | nil => simp [listUnion]
  | cons x xs ih =>
    show a ∈ listUnion (setAdd l x) xs ↔ _
    rw [ih, mem_setAdd]
    simp
    tauto

lemma dictGet_dictSet_self {α β : Type} [DecidableEq α] (d : List (α × β)) (k : α) (v : β) :
    dictGet (dictSet d k v) k = some v := by
  induction d with
  | nil => simp [dictGet, dictSet]
  | cons p rest ih =>
    by_cases h : k = p.1
    · simp [dictGet, dictSet, h]
    · simp [dictGet, dictSet, h, ih]

lemma dictGet_dictSet_ne {α β : Type} [DecidableEq α] (d : List (α × β)) (k k' : α) (v : β)
    (h : k' ≠ k) : dictGet (dictSet d k v) k' = dictGet d k' := by
  induction d with
  | nil => simp [dictGet, dictSet, h]
  | cons p rest ih =>
    by_cases h0 : k = p.1
    · subst h0
      simp [dictGet, dictSet, h]
    · by_cases h1 : k' = p.1
      · simp [dictGet, dictSet, h0, h1]
      · simp [dictGet, dictSet, h0, h1, ih]

lemma containsKey_eq {α β : Type} [DecidableEq α] (d : List (α × β)) (k : α) :
    containsKey d k = (dictGet d k).isSome := by
  induction d with
  | nil => rfl
  | cons p rest ih =>
    by_cases h : k = p.1
    · simp [containsKey, dictGet, h]
    · have h' : p.1 ≠ k := fun e => h e.symm
      simp [containsKey, dictGet, h, h']
      exact ih

lemma dictGet_eq_none_of_key_not_mem {β : Type} {d : List (String × β)} {k : String}
    (h : ∀ p ∈ d, p.1 ≠ k) : dictGet d k = none := by
  induction d with
  | nil => rfl
  | cons p rest ih =>
    have hp : p.1 ≠ k := h p (by simp)
    have : k ≠ p.1 := fun e => hp e.symm
    simp [dictGet, this]
    exact ih (fun q hq => h q (by simp [hq]))

lemma dictGet_mem {α β : Type} [DecidableEq α] {d : List (α × β)} {k : α} {v : β}
    (h : dictGet d k = some v) : (k, v) ∈ d := by
  induction d with
  | nil => simp [dictGet] at h
  | cons p rest ih =>
    by_cases h0 : k = p.1
    · subst h0
      simp [dictGet] at h
      rw [← h]
      exact List.mem_cons_self _ _
    · simp [dictGet, h0] at h
      exact List.mem_cons_of_mem _ (ih h)

/-! ## Effect of the add_* operations on each field -/

@[simp] lemma add_state_alphabet (fa : FiniteAutomaton) (s : String) :
    (add_state fa s).alphabet = fa.alphabet := rfl

@[simp] lemma add_state_start (fa : FiniteAutomaton) (s : String) :
    (add_state fa s).start_state = fa.start_state := rfl

@[simp] lemma add_state_accept (fa : FiniteAutomaton) (s : String) :
    (add_state fa s).accept_states = fa.accept_states := rfl

@[simp] lemma add_state_transitions (fa : FiniteAutomaton) (s : String) :
    (add_state fa s).transitions = fa.transitions := rfl

@[simp] lemma add_state_states (fa : FiniteAutomaton) (s : String) :
    (add_state fa s).states = setAdd fa.states s := rfl

@[simp] lemma add_accept_state_states (fa : FiniteAutomaton) (s : String) :
    (add_accept_state fa s).states = fa.states := rfl

@[simp] lemma add_accept_state_alphabet (fa : FiniteAutomaton) (s : String) :
    (add_accept_state fa s).alphabet = fa.alphabet := rfl

@[simp] lemma add_accept_state_start (fa : FiniteAutomaton) (s : String) :
    (add_accept_state fa s).start_state = fa.start_state := rfl

@[simp] lemma add_accept_state_accept (fa : FiniteAutomaton) (s : String) :
    (add_accept_state fa s).accept_states = setAdd fa.accept_states s := rfl

@[simp] lemma add_accept_state_transitions (fa : FiniteAutomaton) (s : String) :
    (add_accept_state fa s).transitions = fa.transitions := rfl

@[simp] lemma add_start_state_start (fa : FiniteAutomaton) (s : String) :
    (add_start_state fa s).start_state = setAdd fa.start_state s := rfl

@[simp] lemma add_start_state_states (fa : FiniteAutomaton) (s : String) :
    (add_start_state fa s).states = fa.states := rfl

@[simp] lemma add_start_state_transitions (fa : FiniteAutomaton) (s : String) :
    (add_start_state fa s).transitions = fa.transitions := rfl

@[simp] lemma add_start_state_alphabet (fa : FiniteAutomaton) (s : String) :
    (add_start_state fa s).alphabet = fa.alphabet := rfl

@[simp] lemma add_start_state_accept (fa : FiniteAutomaton) (s : String) :
    (add_start_state fa s).accept_states = fa.accept_states := rfl

@[simp] lemma add_transition_states (fa : FiniteAutomaton) (f sym t : String) :
    (add_transition fa f sym t).states = fa.states := rfl

@[simp] lemma add_transition_alphabet (fa : FiniteAutomaton) (f sym t : String) :
    (add_transition fa f sym t).alphabet = fa.alphabet := rfl

@[simp] lemma add_transition_start (fa : FiniteAutomaton) (f sym t : String) :
    (add_transition fa f sym t).start_state = fa.start_state := rfl

@[simp] lemma add_transition_accept (fa : FiniteAutomaton) (f sym t : String) :
    (add_transition fa f sym t).accept_states = fa.accept_states := rfl

lemma add_transition_get_ne (fa : FiniteAutomaton) (f sym t x : String) (h : x ≠ f) :
    dictGet (add_transition fa f sym t).transitions x = dictGet fa.transitions x := by
  unfold add_transition
  exact dictGet_dictSet_ne _ _ _ _ h

lemma add_transition_get_self (fa : FiniteAutomaton) (f sym t : String) :
    dictGet (add_transition fa f sym t).transitions f =
      some (dictSet ((dictGet fa.transitions f).getD []) sym
        (setAdd ((dictGet ((dictGet fa.transitions f).getD []) sym).getD []) t)) := by
  unfold add_transition
  exact dictGet_dictSet_self _ _ _

lemma destinations_add_transition (fa : FiniteAutomaton) (f sym t x y : String) :
    destinations (add_transition fa f sym t) x y =
      if x = f ∧ y = sym then setAdd (destinations fa f sym) t else destinations fa x y := by
  by_cases hx : x = f
  · subst hx
    by_cases hy : y = sym
    · subst hy
      simp only [destinations, add_transition_get_self, Option.getD_some, true_and, if_pos rfl]
      rw [dictGet_dictSet_self]
      rfl
    · simp only [destinations, add_transition_get_self, Option.getD_some]
      rw [dictGet_dictSet_ne _ _ _ _ hy]
      simp [hy]
  · simp only [destinations, add_transition_get_ne fa f sym t x hx]
    simp [hx]

lemma hasEntry_add_transition (fa : FiniteAutomaton) (f sym t x y : String) :
    hasEntry (add_transition fa f sym t) x y =
      if x = f ∧ y = sym then true else hasEntry fa x y := by
  by_cases hx : x = f
  · subst hx
    by_cases hy : y = sym
    · subst hy
      simp only [hasEntry, add_transition_get_self, Option.getD_some, true_and, if_pos rfl]
      rw [containsKey_eq, dictGet_dictSet_self]
      rfl
    · simp only [hasEntry, add_transition_get_self, Option.getD_some]
      rw [containsKey_eq, dictGet_dictSet_ne _ _ _ _ hy, ← containsKey_eq]
      simp [hy]
  · simp only [hasEntry, add_transition_get_ne fa f sym t x hx]
    simp [hx]

lemma mem_destinations_add_transition {d : String} (fa : FiniteAutomaton) (f sym t x y : String)
    (h : d ∈ destinations fa x y) : d ∈ destinations (add_transition fa f sym t) x y := by
  rw [destinations_add_transition]
  split
  · next he =>
    obtain ⟨h1, h2⟩ := he
    subst h1; subst h2
    exact mem_setAdd_of_mem h
  · exact h

lemma hasEntry_add_transition_of (fa : FiniteAutomaton) (f sym t x y : String)
    (h : hasEntry fa x y = true) : hasEntry (add_transition fa f sym t) x y = true := by
  rw [hasEntry_add_transition]
  split
  · rfl
  · exact h

/-! ## Generic fold preservation -/

lemma foldl_preserve {α : Type} {P : FiniteAutomaton → Prop} {f : FiniteAutomaton → α → FiniteAutomaton}
    (hf : ∀ acc x, P acc → P (f acc x)) :
    ∀ (l : List α) (acc : FiniteAutomaton), P acc → P (l.foldl f acc) := by
  intro l
  induction l with
  | nil => intro acc h; exact h
  | cons x xs ih => intro acc h; exact ih (f acc x) (hf acc x h)

lemma mem_destinations_of_mem {fa : FiniteAutomaton} {s a d : String}
    (h : d ∈ destinations fa s a) : hasEntry fa s a = true := by
  unfold destinations at h
  unfold hasEntry
  rw [containsKey_eq]
  cases hm : dictGet ((dictGet fa.transitions s).getD []) a with
  | none => rw [hm] at h; simp at h
  | some ds => rfl

/-! ## Lemmas on routeState and complete -/

lemma routeState_states (alph : List String) (acc : FiniteAutomaton) (s : String) :
    (routeState alph acc s).states = acc.states := by
  unfold routeState
  exact foldl_preserve (P := fun b => b.states = acc.states)
    (by intro b x hb; split <;> simp [hb]) alph acc rfl

lemma routeState_alphabet (alph : List String) (acc : FiniteAutomaton) (s : String) :
    (routeState alph acc s).alphabet = acc.alphabet := by
  unfold routeState
  exact foldl_preserve (P := fun b => b.alphabet = acc.alphabet)
    (by intro b x hb; split <;> simp [hb]) alph acc rfl

lemma routeState_accept (alph : List String) (acc : FiniteAutomaton) (s : String) :
    (routeState alph acc s).accept_states = acc.accept_states := by
  unfold routeState
  exact foldl_preserve (P := fun b => b.accept_states = acc.accept_states)
    (by intro b x hb; split <;> simp [hb]) alph acc rfl

lemma routeState_start (alph : List String) (acc : FiniteAutomaton) (s : String) :
    (routeState alph acc s).start_state = acc.start_state := by
  unfold routeState
  exact foldl_preserve (P := fun b => b.start_state = acc.start_state)
    (by intro b x hb; split <;> simp [hb]) alph acc rfl

lemma routeState_get_ne (alph : List String) (acc : FiniteAutomaton) (s x : String)
    (h : x ≠ s) :
    dictGet (routeState alph acc s).transitions x = dictGet acc.transitions x := by
  unfold routeState
  exact foldl_preserve (P := fun b => dictGet b.transitions x = dictGet acc.transitions x)
    (by
      intro b y hb
      split
      · exact hb
      · rw [add_transition_get_ne _ _ _ _ _ h]; exact hb) alph acc rfl

lemma routeState_hasEntry_mono (alph : List String) (acc : FiniteAutomaton) (s x y : String)
    (h : hasEntry acc x y = true) : hasEntry (routeState alph acc s) x y = true := by
  unfold routeState
  exact foldl_preserve (P := fun b => hasEntry b x y = true)
    (by
      intro b z hb
      split
      · exact hb
      · exact hasEntry_add_transition_of _ _ _ _ _ _ hb) alph acc h

lemma routeState_mem_mono (alph : List String) (acc : FiniteAutomaton) (s x y d : String)
    (h : d ∈ destinations acc x y) : d ∈ destinations (routeState alph acc s) x y := by
  unfold routeState
  exact foldl_preserve (P := fun b => d ∈ destinations b x y)
    (by
      intro b z hb
      split
      · exact hb
      · exact mem_destinations_add_transition _ _ _ _ _ _ hb) alph acc h

lemma route_inner_covers (s : String) (tr : List (String × List String)) :
    ∀ (l : List String) (acc2 : FiniteAutomaton),
      (∀ b, containsKey tr b = true → hasEntry acc2 s b = true) →
      ∀ a ∈ l,
        hasEntry (l.foldl (fun acc2 sym =>
          if containsKey tr sym then acc2 else add_transition acc2 s sym "p") acc2) s a = true := by
  intro l
  induction l with
  | nil => intro acc2 _ a ha; simp at ha
  | cons sym rest ih =>
    intro acc2 hpre a ha
    simp only [List.foldl_cons]
    have hpre' : ∀ b, containsKey tr b = true →
        hasEntry (if containsKey tr sym then acc2 else add_transition acc2 s sym "p") s b = true := by
      intro b hb
      split
      · exact hpre b hb
      · exact hasEntry_add_transition_of _ _ _ _ _ _ (hpre b hb)
    rcases List.mem_cons.mp ha with rfl | hrest
    · -- the symbol handled at this turn
      have hnow : hasEntry (if containsKey tr a then acc2 else add_transition acc2 s a "p") s a = true := by
        by_cases hc : containsKey tr a = true
        · rw [if_pos hc]; exact hpre a hc
        · rw [if_neg hc, hasEntry_add_transition]
          simp
      exact foldl_preserve (P := fun b => hasEntry b s a = true)
        (by
          intro b z hb
          split
          · exact hb
          · exact hasEntry_add_transition_of _ _ _ _ _ _ hb) rest _ hnow
    · exact ih _ hpre' a hrest

lemma routeState_covers (alph : List String) (acc : FiniteAutomaton) (s : String) :
    ∀ a ∈ alph, hasEntry (routeState alph acc s) s a = true := by
  intro a ha
  unfold routeState
  exact route_inner_covers s _ alph acc (fun b hb => hb) a ha

lemma route_fold_covers (alph : List String) :
    ∀ (l : List String) (acc : FiniteAutomaton), ∀ s ∈ l, ∀ a ∈ alph,
      hasEntry (l.foldl (routeState alph) acc) s a = true := by
  intro l
  induction l with
  | nil => intro acc s hs; simp at hs
  | cons x rest ih =>
    intro acc s hs a ha
    simp only [List.foldl_cons]
    rcases List.mem_cons.mp hs with rfl | hrest
    · exact foldl_preserve (P := fun b => hasEntry b s a = true)
        (fun b z hb => routeState_hasEntry_mono alph b z s a hb) rest _
        (routeState_covers alph acc s a ha)
    · exact ih _ s hrest a ha

lemma route_fold_states (alph : List String) (l : List String) (acc : FiniteAutomaton) :
    (l.foldl (routeState alph) acc).states = acc.states :=
  foldl_preserve (P := fun b => b.states = acc.states)
    (fun b x hb => (routeState_states alph b x).trans hb) l acc rfl

lemma route_fold_alphabet (alph : List String) (l : List String) (acc : FiniteAutomaton) :
    (l.foldl (routeState alph) acc).alphabet = acc.alphabet :=
  foldl_preserve (P := fun b => b.alphabet = acc.alphabet)
    (fun b x hb => (routeState_alphabet alph b x).trans hb) l acc rfl

lemma route_fold_accept (alph : List String) (l : List String) (acc : FiniteAutomaton) :
    (l.foldl (routeState alph) acc).accept_states = acc.accept_states :=
  foldl_preserve (P := fun b => b.accept_states = acc.accept_states)
    (fun b x hb => (routeState_accept alph b x).trans hb) l acc rfl

lemma route_fold_start (alph : List String) (l : List String) (acc : FiniteAutomaton) :
    (l.foldl (routeState alph) acc).start_state = acc.start_state :=
  foldl_preserve (P := fun b => b.start_state = acc.start_state)
    (fun b x hb => (routeState_start alph b x).trans hb) l acc rfl

lemma sink_fold_states (l : List String) (acc : FiniteAutomaton) :
    (l.foldl (fun acc sym => add_transition acc "p" sym "p") acc).states = acc.states :=
  foldl_preserve (P := fun b => b.states = acc.states)
    (f := fun acc sym => add_transition acc "p" sym "p") (fun b x hb => hb) l acc rfl

lemma sink_fold_alphabet (l : List String) (acc : FiniteAutomaton) :
    (l.foldl (fun acc sym => add_transition acc "p" sym "p") acc).alphabet = acc.alphabet :=
  foldl_preserve (P := fun b => b.alphabet = acc.alphabet)
    (f := fun acc sym => add_transition acc "p" sym "p") (fun b x hb => hb) l acc rfl

lemma sink_fold_accept (l : List String) (acc : FiniteAutomaton) :
    (l.foldl (fun acc sym => add_transition acc "p" sym "p") acc).accept_states = acc.accept_states :=
  foldl_preserve (P := fun b => b.accept_states = acc.accept_states)
    (f := fun acc sym => add_transition acc "p" sym "p") (fun b x hb => hb) l acc rfl

lemma sink_fold_start (l : List String) (acc : FiniteAutomaton) :
    (l.foldl (fun acc sym => add_transition acc "p" sym "p") acc).start_state = acc.start_state :=
  foldl_preserve (P := fun b => b.start_state = acc.start_state)
    (f := fun acc sym => add_transition acc "p" sym "p") (fun b x hb => hb) l acc rfl

lemma sink_fold_hasEntry_mono (l : List String) (acc : FiniteAutomaton) (x y : String)
    (h : hasEntry acc x y = true) :
    hasEntry (l.foldl (fun acc sym => add_transition acc "p" sym "p") acc) x y = true :=
  foldl_preserve (P := fun b => hasEntry b x y = true)
    (fun b z hb => hasEntry_add_transition_of _ _ _ _ _ _ hb) l acc h

lemma sink_fold_mem_mono (l : List String) (acc : FiniteAutomaton) (x y d : String)
    (h : d ∈ destinations acc x y) :
    d ∈ destinations (l.foldl (fun acc sym => add_transition acc "p" sym "p") acc) x y :=
  foldl_preserve (P := fun b => d ∈ destinations b x y)
    (fun b z hb => mem_destinations_add_transition _ _ _ _ _ _ hb) l acc h

lemma sink_fold_self_loop :
    ∀ (l : List String) (acc : FiniteAutomaton), ∀ a ∈ l,
      "p" ∈ destinations (l.foldl (fun acc sym => add_transition acc "p" sym "p") acc) "p" a := by
  intro l
  induction l with
  | nil => intro acc a ha; simp at ha
  | cons sym rest ih =>
    intro acc a ha
    simp only [List.foldl_cons]
    rcases List.mem_cons.mp ha with rfl | hrest
    · refine sink_fold_mem_mono rest _ "p" a "p" ?_
      rw [destinations_add_transition]
      simp only [true_and, if_pos rfl]
      exact mem_setAdd_self
    · exact ih _ a hrest

lemma sink_fold_hasEntry_self :
    ∀ (l : List String) (acc : FiniteAutomaton), ∀ a ∈ l,
      hasEntry (l.foldl (fun acc sym => add_transition acc "p" sym "p") acc) "p" a = true := by
  intro l acc a ha
  exact mem_destinations_of_mem (sink_fold_self_loop l acc a ha)

lemma isSome_of_hasEntry {fa : FiniteAutomaton} {s a : String}
    (h : hasEntry fa s a = true) : (dictGet fa.transitions s).isSome = true := by
  unfold hasEntry at h
  cases hm : dictGet fa.transitions s with
  | none => rw [hm] at h; simp [containsKey] at h
  | some m => rfl

lemma is_complete_iff (fa : FiniteAutomaton) :
    is_complete fa = true ↔
      ∀ s ∈ fa.states, (dictGet fa.transitions s).isSome = true ∧
        ∀ a ∈ fa.alphabet, hasEntry fa s a = true := by
  unfold is_complete
  rw [List.all_eq_true]
  constructor
  · intro h s hs
    have := h s hs
    cases hm : dictGet fa.transitions s with
    | none => rw [hm] at this; simp at this
    | some m =>
      rw [hm] at this
      simp only [List.all_eq_true] at this
      refine ⟨rfl, fun a ha => ?_⟩
      unfold hasEntry
      rw [hm]
      exact this a ha
  · intro h s hs
    obtain ⟨h1, h2⟩ := h s hs
    cases hm : dictGet fa.transitions s with
    | none => rw [hm] at h1; simp at h1
    | some m =>
      simp only [List.all_eq_true]
      intro a ha
      have := h2 a ha
      unfold hasEntry at this
      rw [hm] at this
      exact this

lemma route_inner_missing (s : String) (tr : List (String × List String)) :
    ∀ (l : List String) (acc2 : FiniteAutomaton), ∀ a ∈ l, containsKey tr a = false →
      "p" ∈ destinations (l.foldl (fun acc2 sym =>
        if containsKey tr sym then acc2 else add_transition acc2 s sym "p") acc2) s a := by
  intro l
  induction l with
  | nil => intro acc2 a ha; simp at ha
  | cons sym rest ih =>
    intro acc2 a ha hmiss
    simp only [List.foldl_cons]
    rcases List.mem_cons.mp ha with rfl | hrest
    · rw [if_neg (by simp [hmiss])]
      refine foldl_preserve (P := fun b => "p" ∈ destinations b s a)
        (by
          intro b z hb
          split
          · exact hb
          · exact mem_destinations_add_transition _ _ _ _ _ _ hb) rest _ ?_
      show "p" ∈ destinations (add_transition acc2 s a "p") s a
      rw [destinations_add_transition]
      simp only [true_and, if_pos rfl]
      exact mem_setAdd_self
    · exact ih _ a hrest hmiss

lemma routeState_missing (alph : List String) (acc : FiniteAutomaton) (s : String)
    (a : String) (ha : a ∈ alph) (hmiss : hasEntry acc s a = false) :
    "p" ∈ destinations (routeState alph acc s) s a := by
  unfold routeState
  exact route_inner_missing s _ alph acc a ha hmiss

lemma route_fold_missing (alph : List String) :
    ∀ (l : List String) (acc : FiniteAutomaton), l.Nodup → ∀ s ∈ l, ∀ a ∈ alph,
      hasEntry acc s a = false →
      "p" ∈ destinations (l.foldl (routeState alph) acc) s a := by
  intro l
  induction l with
  | nil => intro acc _ s hs; simp at hs
  | cons x rest ih =>
    intro acc hnd s hs a ha hmiss
    simp only [List.foldl_cons]
    rcases List.mem_cons.mp hs with rfl | hrest
    · exact foldl_preserve (P := fun b => "p" ∈ destinations b s a)
        (fun b z hb => routeState_mem_mono alph b z s a "p" hb) rest _
        (routeState_missing alph acc s a ha hmiss)
    · have hxs : x ≠ s := by
        intro e
        subst e
        exact (List.nodup_cons.mp hnd).1 hrest
      have hmiss' : hasEntry (routeState alph acc x) s a = false := by
        unfold hasEntry
        rw [routeState_get_ne alph acc x s (fun e => hxs e.symm)]
        exact hmiss
      exact ih _ (List.nodup_cons.mp hnd).2 s hrest a ha hmiss'

lemma complete_of_is_complete {fa : FiniteAutomaton} (h : is_complete fa = true) :
    complete fa = fa := by
  unfold complete
  simp [h]

lemma complete_alphabet (fa : FiniteAutomaton) : (complete fa).alphabet = fa.alphabet := by
  unfold complete
  split
  · rfl
  · rw [sink_fold_alphabet, route_fold_alphabet]
    rfl

lemma complete_accept (fa : FiniteAutomaton) :
    (complete fa).accept_states = fa.accept_states := by
  unfold complete
  split
  · rfl
  · rw [sink_fold_accept, route_fold_accept]
    rfl

lemma complete_start (fa : FiniteAutomaton) :
    (complete fa).start_state = fa.start_state := by
  unfold complete
  split
  · rfl
  · rw [sink_fold_start, route_fold_start]
    rfl

lemma complete_states_of_incomplete {fa : FiniteAutomaton} (h : is_complete fa = false) :
    (complete fa).states = setAdd fa.states "p" := by
  unfold complete
  rw [if_neg (by simp [h])]
  rw [sink_fold_states, route_fold_states]
  rfl

lemma is_complete_complete (fa : FiniteAutomaton) (h : fa.alphabet ≠ []) :
    is_complete (complete fa) = true := by
  by_cases hc : is_complete fa = true
  · rw [complete_of_is_complete hc]; exact hc
  · have hc' : is_complete fa = false := by simp [hc]
    rw [is_complete_iff]
    intro s hs
    rw [complete_states_of_incomplete hc'] at hs
    have hcover : ∀ a ∈ fa.alphabet, hasEntry (complete fa) s a = true := by
      intro a ha
      unfold complete
      rw [if_neg (by simp [hc'])]
      refine sink_fold_hasEntry_mono _ _ _ _ ?_
      exact route_fold_covers fa.alphabet (setAdd fa.states "p") (add_state fa "p") s hs a ha
    obtain ⟨a0, ha0⟩ := List.exists_mem_of_ne_nil fa.alphabet h
    refine ⟨?_, by
      intro a ha
      rw [complete_alphabet] at ha
      exact hcover a ha⟩
    exact isSome_of_hasEntry (hcover a0 ha0)

lemma complete_of_incomplete {fa : FiniteAutomaton} (h : is_complete fa = false) :
    complete fa = (add_state fa "p").alphabet.foldl
      (fun acc sym => add_transition acc "p" sym "p")
      ((add_state fa "p").states.foldl (routeState (add_state fa "p").alphabet)
        (add_state fa "p")) := by
  unfold complete
  rw [if_neg (by simp [h])]

lemma route_fold_nil_alphabet :
    ∀ (l : List String) (acc : FiniteAutomaton), l.foldl (routeState []) acc = acc := by
  intro l
  induction l with
  | nil => intro acc; rfl
  | cons x xs ih =>
    intro acc
    simp only [List.foldl_cons]
    exact ih acc

/-- C7: `complete` is idempotent with respect to the transition relation:
`complete(complete(A))` has exactly the transition relation of
`complete(A)`. -/
theorem complete_idempotent_transitions (fa : FiniteAutomaton) :
    (complete (complete fa)).transitions = (complete fa).transitions := by
  by_cases h : is_complete (complete fa) = true
  · rw [complete_of_is_complete h]
  · have h' : is_complete (complete fa) = false := by simp [h]
    have ha : fa.alphabet = [] := by
      by_contra hne
      exact absurd (is_complete_complete fa hne) (by simp [h'])
    have hb : (complete fa).alphabet = [] := by rw [complete_alphabet]; exact ha
    rw [complete_of_incomplete h']
    rw [add_state_alphabet, hb]
    simp only [List.foldl_nil]
    rw [route_fold_nil_alphabet]
    rfl

/-! ## C4: the sink state of complete -/

/-- An automaton that already contains a state labelled "p"
and is not complete. -/
def exC4 : FiniteAutomaton :=
  { states := ["p"], alphabet := ["a"], start_state := ["p"], accept_states := [],
    transitions := [] }

/-- C4 counterexample: on an incomplete automaton that already has a
state labelled "p", `complete` introduces no new state at all — the
claimed fresh non-colliding sink does not exist. -/
theorem C4_counterexample :
    is_complete exC4 = false ∧ (complete exC4).states = exC4.states := by
  constructor
  · decide
  · decide

/-- C4 (amended): provided no existing state is labelled "p", `complete`
on an incomplete automaton adds exactly the one fresh sink state "p",
routes every missing (state, non-epsilon symbol) pair to it, gives it a
self-loop on every alphabet symbol, and leaves the accept-state set
unchanged (in particular the sink is not accepting). -/
theorem C4_complete_fresh_sink (fa : FiniteAutomaton)
    (hnodup : fa.states.Nodup)
    (hp : "p" ∉ fa.states)
    (hpacc : "p" ∉ fa.accept_states)
    (hinc : is_complete fa = false) :
    (complete fa).states = fa.states ++ ["p"] ∧
    (∀ s ∈ fa.states, ∀ a ∈ fa.alphabet, a ≠ epsilon → hasEntry fa s a = false →
      "p" ∈ destinations (complete fa) s a) ∧
    (∀ a ∈ fa.alphabet, "p" ∈ destinations (complete fa) "p" a) ∧
    (complete fa).accept_states = fa.accept_states ∧
    "p" ∉ (complete fa).accept_states := by
  have hstates1 : (add_state fa "p").states = fa.states ++ ["p"] := by
    rw [add_state_states, setAdd_of_not_mem hp]
  have hnodup1 : (fa.states ++ ["p"]).Nodup := by
    rw [List.nodup_append]
    exact ⟨hnodup, List.nodup_singleton "p", by
      intro x hx hx'
      simp at hx'
      subst hx'
      exact hp hx⟩
  refine ⟨?_, ?_, ?_, ?_, ?_⟩
  · rw [complete_states_of_incomplete hinc, setAdd_of_not_mem hp]
  · intro s hs a ha hne hmiss
    rw [complete_of_incomplete hinc]
    refine sink_fold_mem_mono _ _ _ _ _ ?_
    rw [hstates1]
    refine route_fold_missing (add_state fa "p").alphabet (fa.states ++ ["p"])
      (add_state fa "p") hnodup1 s (List.mem_append_left _ hs) a ?_ hmiss
    rw [add_state_alphabet]
    exact ha
  · intro a ha
    rw [complete_of_incomplete hinc]
    refine sink_fold_self_loop _ _ a ?_
    rw [add_state_alphabet]
    exact ha
  · exact complete_accept fa
  · rw [complete_accept fa]
    exact hpacc

/-- A small incomplete automaton without a "p" state, for the C4
witness. -/
def exC4w : FiniteAutomaton :=
  { states := ["s0", "s1"], alphabet := ["a"], start_state := ["s0"], accept_states := ["s1"],
    transitions := [("s0", [("a", ["s1"])])] }

/-- C4 witness: the amended theorem applied to a concrete incomplete
automaton — the missing pair (s1, a) is routed to the fresh sink. -/
theorem C4_witness : "p" ∈ destinations (complete exC4w) "s1" "a" :=
  (C4_complete_fresh_sink exC4w (by decide) (by decide) (by decide) (by decide)).2.1
    "s1" (by decide) "a" (by decide) (by decide) (by decide)

/-! ## C2: the completeness check and the epsilon symbol -/

/-- Modelled from the spec's words for comparison with the code: a
completeness check in which the epsilon symbol is excluded from the
per-symbol obligation. -/
def is_complete_excl_eps (fa : FiniteAutomaton) : Bool :=
  fa.states.all (fun s =>
    match dictGet fa.transitions s with
    | none => false
    | some m => fa.alphabet.all (fun a => decide (a = epsilon) || containsKey m a))

/-- An automaton whose alphabet contains the epsilon symbol and whose
only state has an entry, but no entry for epsilon. -/
def exC2 : FiniteAutomaton :=
  { states := ["q0"], alphabet := ["Îµ"], start_state := ["q0"], accept_states := [],
    transitions := [("q0", [("a", ["q0"])])] }

/-- C2 counterexample: the code's `is_complete` is false on `exC2`
although no state lacks an entry and no non-epsilon alphabet symbol is
missing — the claimed equivalence with the epsilon-excluded check fails,
because the code does NOT exclude epsilon. -/
theorem C2_counterexample :
    ¬ (is_complete exC2 = false ↔ is_complete_excl_eps exC2 = false) := by
  decide

/-- C2 (amended): `is_complete` is false iff some state has no
transitions entry at all, or some state lacks an entry for some alphabet
symbol — with the epsilon symbol included in the check, so a missing
epsilon entry does make `is_complete` false when epsilon is in the
alphabet. -/
theorem C2_is_complete_characterization (fa : FiniteAutomaton) :
    is_complete fa = false ↔
      ∃ s ∈ fa.states, dictGet fa.transitions s = none ∨
        ∃ a ∈ fa.alphabet, hasEntry fa s a = false := by
  constructor
  · intro h
    by_contra hno
    push_neg at hno
    have hc : is_complete fa = true := by
      rw [is_complete_iff]
      intro s hs
      obtain ⟨h1, h2⟩ := hno s hs
      refine ⟨?_, fun a ha => ?_⟩
      · cases hm : dictGet fa.transitions s with
        | none => exact absurd hm h1
        | some m => rfl
      · have := h2 a ha
        simpa using this
    rw [hc] at h
    exact absurd h (by simp)
  · rintro ⟨s, hs, hcase⟩
    cases hcomplete : is_complete fa with
    | false => rfl
    | true =>
      exfalso
      rw [is_complete_iff] at hcomplete
      obtain ⟨h1, h2⟩ := hcomplete s hs
      rcases hcase with hnone | ⟨a, ha, hmiss⟩
      · rw [hnone] at h1
        simp at h1
      · rw [h2 a ha] at hmiss
        simp at hmiss

/-- C2 witness: the amended characterization applied to `exC2` — the
missing epsilon entry makes `is_complete` false. -/
theorem C2_witness : is_complete exC2 = false :=
  (C2_is_complete_characterization exC2).mpr
    ⟨"q0", by decide, Or.inr ⟨epsilon, by decide, by decide⟩⟩

/-! ## C8: the classification string -/

/-- C8: `fa_type` returns exactly the space-separated labels
"deterministic", "complete", "standard" of the predicates that hold, in
this fixed order, and "not recognized" when none hold. -/
theorem fa_type_eq_spec (fa : FiniteAutomaton) : fa_type fa = fa_type_spec fa := by
  unfold fa_type fa_type_spec
  cases h1 : is_deterministic fa <;> cases h2 : is_complete fa <;>
    cases h3 : is_standard fa <;> simp [h1, h2, h3]

/-! ## Lemmas on copyStart and standardize -/

lemma copyStart_preserve {P : FiniteAutomaton → Prop}
    (hP : ∀ b sym t, P b → P (add_transition b "i" sym t))
    (acc : FiniteAutomaton) (s : String) (h : P acc) : P (copyStart acc s) := by
  unfold copyStart
  refine foldl_preserve (P := P) ?_ _ acc h
  intro b p hb
  exact foldl_preserve (P := P) (fun b2 d hb2 => hP b2 p.1 d hb2) p.2 b hb

lemma copyStart_states (acc : FiniteAutomaton) (s : String) :
    (copyStart acc s).states = acc.states :=
  copyStart_preserve (P := fun b => b.states = acc.states)
    (fun b sym t hb => hb) acc s rfl

lemma copyStart_alphabet (acc : FiniteAutomaton) (s : String) :
    (copyStart acc s).alphabet = acc.alphabet :=
  copyStart_preserve (P := fun b => b.alphabet = acc.alphabet)
    (fun b sym t hb => hb) acc s rfl

lemma copyStart_start (acc : FiniteAutomaton) (s : String) :
    (copyStart acc s).start_state = acc.start_state :=
  copyStart_preserve (P := fun b => b.start_state = acc.start_state)
    (fun b sym t hb => hb) acc s rfl

lemma copyStart_accept (acc : FiniteAutomaton) (s : String) :
    (copyStart acc s).accept_states = acc.accept_states :=
  copyStart_preserve (P := fun b => b.accept_states = acc.accept_states)
    (fun b sym t hb => hb) acc s rfl

lemma copyStart_get_ne (acc : FiniteAutomaton) (s x : String) (hx : x ≠ "i") :
    dictGet (copyStart acc s).transitions x = dictGet acc.transitions x :=
  copyStart_preserve (P := fun b => dictGet b.transitions x = dictGet acc.transitions x)
    (fun b sym t hb => by
      show dictGet (add_transition b "i" sym t).transitions x = dictGet acc.transitions x
      rw [add_transition_get_ne _ _ _ _ _ hx]
      exact hb) acc s rfl

lemma dictGet_cons_self {α β : Type} [DecidableEq α] (p : α × β) (rest : List (α × β)) :
    dictGet (p :: rest) p.1 = some p.2 := by
  cases p
  simp [dictGet]

lemma dictGet_cons_ne {α β : Type} [DecidableEq α] (p : α × β) (rest : List (α × β)) (k : α)
    (h : k ≠ p.1) : dictGet (p :: rest) k = dictGet rest k := by
  cases p
  simp only [dictGet]
  rw [if_neg h]

lemma addDests_dest_iff (sym0 : String) :
    ∀ (ds : List String) (acc : FiniteAutomaton) (sym d : String),
      d ∈ destinations (ds.foldl (fun acc3 d2 => add_transition acc3 "i" sym0 d2) acc) "i" sym ↔
        d ∈ destinations acc "i" sym ∨ (sym = sym0 ∧ d ∈ ds) := by
  intro ds
  induction ds with
  | nil => intro acc sym d; simp
  | cons d0 rest ih =>
    intro acc sym d
    simp only [List.foldl_cons]
    rw [ih]
    rw [destinations_add_transition]
    by_cases hs : sym = sym0
    · subst hs
      rw [if_pos ⟨rfl, rfl⟩, mem_setAdd]
      simp only [List.mem_cons]
      tauto
    · rw [if_neg (by simp [hs])]
      simp only [List.mem_cons]
      constructor
      · rintro (h | ⟨he, hm⟩)
        · exact Or.inl h
        · exact absurd he hs
      · rintro (h | ⟨he, hm⟩)
        · exact Or.inl h
        · exact absurd he hs

lemma pairsFold_dest_iff :
    ∀ (pairs : List (String × List String)) (acc : FiniteAutomaton) (sym d : String),
      d ∈ destinations (pairs.foldl
        (fun acc2 p => p.2.foldl (fun acc3 d2 => add_transition acc3 "i" p.1 d2) acc2) acc) "i" sym ↔
        d ∈ destinations acc "i" sym ∨ ∃ p ∈ pairs, p.1 = sym ∧ d ∈ p.2 := by
  intro pairs
  induction pairs with
  | nil => intro acc sym d; simp
  | cons p0 rest ih =>
    intro acc sym d
    simp only [List.foldl_cons]
    rw [ih, addDests_dest_iff]
    simp only [List.mem_cons]
    constructor
    · rintro ((h | ⟨he, hm⟩) | ⟨p, hp, he, hm⟩)
      · exact Or.inl h
      · exact Or.inr ⟨p0, Or.inl rfl, he.symm, hm⟩
      · exact Or.inr ⟨p, Or.inr hp, he, hm⟩
    · rintro (h | ⟨p, hp | hp, he, hm⟩)
      · exact Or.inl (Or.inl h)
      · subst hp; exact Or.inl (Or.inr ⟨he.symm, hm⟩)
      · exact Or.inr ⟨p, hp, he, hm⟩

lemma dictGet_iff_exists_of_nodup {m : List (String × List String)}
    (hnd : (m.map Prod.fst).Nodup) (sym d : String) :
    (∃ p ∈ m, p.1 = sym ∧ d ∈ p.2) ↔ d ∈ (dictGet m sym).getD [] := by
  induction m with
  | nil => simp [dictGet]
  | cons p0 rest ih =>
    simp only [List.map_cons, List.nodup_cons] at hnd
    obtain ⟨hnotin, hnd'⟩ := hnd
    by_cases he : sym = p0.1
    · subst he
      rw [dictGet_cons_self]
      simp only [Option.getD_some, List.mem_cons]
      constructor
      · rintro ⟨p, hp | hp, hke, hm⟩
        · subst hp; exact hm
        · exfalso
          exact hnotin (hke ▸ List.mem_map_of_mem Prod.fst hp)
      · intro hm
        exact ⟨p0, Or.inl rfl, rfl, hm⟩
    · rw [dictGet_cons_ne p0 rest sym he]
      rw [← ih hnd']
      simp only [List.mem_cons]
      constructor
      · rintro ⟨p, hp | hp, hke, hm⟩
        · subst hp; exact absurd hke.symm he
        · exact ⟨p, hp, hke, hm⟩
      · rintro ⟨p, hp, hke, hm⟩
        exact ⟨p, Or.inr hp, hke, hm⟩

lemma copyStart_dest_iff (acc : FiniteAutomaton) (s : String)
    (hnd : (((dictGet acc.transitions s).getD []).map Prod.fst).Nodup) (sym d : String) :
    d ∈ destinations (copyStart acc s) "i" sym ↔
      d ∈ destinations acc "i" sym ∨ d ∈ destinations acc s sym := by
  unfold copyStart
  rw [pairsFold_dest_iff]
  unfold destinations
  rw [← dictGet_iff_exists_of_nodup hnd sym d]

lemma start_fold_get_ne (x : String) (hx : x ≠ "i") :
    ∀ (l : List String) (acc : FiniteAutomaton),
      dictGet (l.foldl copyStart acc).transitions x = dictGet acc.transitions x := by
  intro l acc
  exact foldl_preserve (P := fun b => dictGet b.transitions x = dictGet acc.transitions x)
    (fun b s hb => (copyStart_get_ne b s x hx).trans hb) l acc rfl

lemma start_fold_dest_iff (fa : FiniteAutomaton)
    (hinner : ∀ p ∈ fa.transitions, (p.2.map Prod.fst).Nodup) :
    ∀ (l : List String) (acc : FiniteAutomaton),
      (∀ x, x ≠ "i" → dictGet acc.transitions x = dictGet fa.transitions x) →
      (∀ s ∈ l, s ≠ "i") →
      ∀ sym d, d ∈ destinations (l.foldl copyStart acc) "i" sym ↔
        d ∈ destinations acc "i" sym ∨ ∃ s ∈ l, d ∈ destinations fa s sym := by
  intro l
  induction l with
  | nil => intro acc hx hl sym d; simp
  | cons s rest ih =>
    intro acc hx hl sym d
    have hs_ne : s ≠ "i" := hl s (List.mem_cons_self s rest)
    have hacc_s : dictGet acc.transitions s = dictGet fa.transitions s := hx s hs_ne
    have hnd : (((dictGet acc.transitions s).getD []).map Prod.fst).Nodup := by
      rw [hacc_s]
      cases hm : dictGet fa.transitions s with
      | none => simp
      | some m0 => exact hinner (s, m0) (dictGet_mem hm)
    have hdest_s : destinations acc s sym = destinations fa s sym := by
      unfold destinations
      rw [hacc_s]
    have hx' : ∀ x, x ≠ "i" → dictGet (copyStart acc s).transitions x = dictGet fa.transitions x :=
      fun x h => (copyStart_get_ne acc s x h).trans (hx x h)
    have hl' : ∀ s' ∈ rest, s' ≠ "i" := fun s' h => hl s' (List.mem_cons_of_mem s h)
    simp only [List.foldl_cons]
    rw [ih (copyStart acc s) hx' hl' sym d]
    rw [copyStart_dest_iff acc s hnd sym d, hdest_s]
    simp only [List.mem_cons]
    constructor
    · rintro ((h | h) | ⟨s', hs', hm⟩)
      · exact Or.inl h
      · exact Or.inr ⟨s, Or.inl rfl, h⟩
      · exact Or.inr ⟨s', Or.inr hs', hm⟩
    · rintro (h | ⟨s', hs' | hs', hm⟩)
      · exact Or.inl (Or.inl h)
      · subst hs'; exact Or.inl (Or.inr hm)
      · exact Or.inr ⟨s', hs', hm⟩

lemma standardize_of_not_standard {fa : FiniteAutomaton} (h : is_standard fa = false) :
    standardize fa =
      { (add_state fa "i").start_state.foldl copyStart (add_state fa "i") with
        start_state := ["i"] } := by
  unfold standardize
  rw [if_neg (by simp [h])]

lemma standardize_accept (fa : FiniteAutomaton) :
    (standardize fa).accept_states = fa.accept_states := by
  unfold standardize
  split
  · rfl
  · show (fa.start_state.foldl copyStart (add_state fa "i")).accept_states = fa.accept_states
    exact foldl_preserve (P := fun b => b.accept_states = fa.accept_states)
      (fun b s hb => (copyStart_accept b s).trans hb) fa.start_state _ rfl

/-! ## C5: standardize with a fresh start label -/

/-- An automaton with two start states, one of which is already
labelled "i". -/
def exC5 : FiniteAutomaton :=
  { states := ["i", "k"], alphabet := ["a"], start_state := ["i", "k"], accept_states := [],
    transitions := [("k", [("a", ["k"])])] }

/-- C5 counterexample: on an automaton with two start states, one of
them labelled "i", `standardize` picks the existing state "i" as "new"
start — the single start state is NOT a new state and the original start
state "i" does not keep its transitions unchanged (it gains k's). -/
theorem C5_counterexample :
    1 < exC5.start_state.length ∧ "i" ∈ exC5.states ∧
    (standardize exC5).start_state = ["i"] ∧
    dictGet (standardize exC5).transitions "i" ≠ dictGet exC5.transitions "i" := by
  refine ⟨by decide, by decide, by decide, by decide⟩

/-- C5 (amended): provided the label "i" is not an existing state and
the automaton is well-formed (start states and transition sources are
states, and symbol dicts have no duplicate keys), `standardize` of an
automaton with more than one start state makes the fresh state "i" the
only start state, gives it exactly the union of the original start
states' outgoing transitions, and leaves every original state and its
transitions unchanged. -/
theorem C5_standardize_new_start (fa : FiniteAutomaton)
    (hmulti : 1 < fa.start_state.length)
    (hi : "i" ∉ fa.states)
    (hstart_wf : ∀ s ∈ fa.start_state, s ∈ fa.states)
    (hkeys_wf : ∀ p ∈ fa.transitions, p.1 ∈ fa.states)
    (hinner : ∀ p ∈ fa.transitions, (p.2.map Prod.fst).Nodup) :
    (standardize fa).start_state = ["i"] ∧
    (standardize fa).states = fa.states ++ ["i"] ∧
    (∀ sym d, d ∈ destinations (standardize fa) "i" sym ↔
      ∃ s ∈ fa.start_state, d ∈ destinations fa s sym) ∧
    (∀ s ∈ fa.states, dictGet (standardize fa).transitions s = dictGet fa.transitions s) := by
  have hns : is_standard fa = false := by
    unfold is_standard
    simp only [decide_eq_false_iff_not]
    omega
  have hgeti : dictGet fa.transitions "i" = none :=
    dictGet_eq_none_of_key_not_mem (fun p hp e => hi (e ▸ hkeys_wf p hp))
  have hl : ∀ s ∈ fa.start_state, s ≠ "i" :=
    fun s hs e => hi (e ▸ hstart_wf s hs)
  rw [standardize_of_not_standard hns]
  refine ⟨rfl, ?_, ?_, ?_⟩
  · show ((add_state fa "i").start_state.foldl copyStart (add_state fa "i")).states
        = fa.states ++ ["i"]
    have : ∀ (l : List String) (acc : FiniteAutomaton),
        (l.foldl copyStart acc).states = acc.states :=
      fun l acc => foldl_preserve (P := fun b => b.states = acc.states)
        (fun b s hb => (copyStart_states b s).trans hb) l acc rfl
    rw [this]
    rw [add_state_states, setAdd_of_not_mem hi]
  · intro sym d
    show d ∈ destinations ((add_state fa "i").start_state.foldl copyStart (add_state fa "i"))
        "i" sym ↔ _
    rw [start_fold_dest_iff fa hinner (add_state fa "i").start_state (add_state fa "i")
      (fun x _ => rfl) hl sym d]
    have hbase : destinations (add_state fa "i") "i" sym = [] := by
      unfold destinations
      rw [add_state_transitions, hgeti]
      rfl
    rw [hbase]
    simp
  · intro s hs
    show dictGet ((add_state fa "i").start_state.foldl copyStart (add_state fa "i")).transitions s
        = dictGet fa.transitions s
    have hs_ne : s ≠ "i" := fun e => hi (e ▸ hs)
    rw [start_fold_get_ne s hs_ne]
    rfl

/-- A two-start automaton with disjoint outgoing transitions, for the
C5 witness. -/
def exC5w : FiniteAutomaton :=
  { states := ["s0", "s1"], alphabet := ["a", "b"], start_state := ["s0", "s1"],
    accept_states := [],
    transitions := [("s0", [("a", ["s0"])]), ("s1", [("b", ["s1"])])] }

/-- C5 witness: the amended theorem applied to a concrete two-start
automaton — the new start "i" holds s1's transition on "b". -/
theorem C5_witness : "s1" ∈ destinations (standardize exC5w) "i" "b" :=
  ((C5_standardize_new_start exC5w (by decide) (by decide) (by decide) (by decide)
    (by decide)).2.2.1 "b" "s1").mpr ⟨"s1", by decide, by decide⟩

/-! ## C9: standardize and accept states -/

/-- A non-standard automaton whose accept set already contains the
label "i" together with an accepting original start state. -/
def exC9 : FiniteAutomaton :=
  { states := ["i", "a", "b"], alphabet := ["x"], start_state := ["a", "b"],
    accept_states := ["i", "a"], transitions := [] }

/-- C9 counterexample: when the label "i" is already accepting, the new
single start state produced by `standardize` IS a member of
accept_states, contradicting the claim. -/
theorem C9_counterexample :
    is_standard exC9 = false ∧ "a" ∈ exC9.start_state ∧ "a" ∈ exC9.accept_states ∧
    (standardize exC9).start_state = ["i"] ∧ "i" ∈ (standardize exC9).accept_states := by
  refine ⟨by decide, by decide, by decide, by decide, by decide⟩

/-- C9 (amended): provided the label "i" is not already an accept
state, `standardize` of a non-standard automaton with an accepting
original start state leaves the accept-state set unchanged and its new
single start state "i" is not a member of accept_states. -/
theorem C9_accept_not_transferred (fa : FiniteAutomaton)
    (hns : is_standard fa = false)
    (hsa : ∃ s ∈ fa.start_state, s ∈ fa.accept_states)
    (hi : "i" ∉ fa.accept_states) :
    (standardize fa).start_state = ["i"] ∧
    (standardize fa).accept_states = fa.accept_states ∧
    "i" ∉ (standardize fa).accept_states := by
  refine ⟨?_, standardize_accept fa, by rw [standardize_accept fa]; exact hi⟩
  rw [standardize_of_not_standard hns]

/-- A non-standard automaton with an accepting start state and no state
labelled "i", for the C9 witness. -/
def exC9w : FiniteAutomaton :=
  { states := ["s0", "s1", "s2"], alphabet := ["x"], start_state := ["s0", "s1"],
    accept_states := ["s0"], transitions := [] }

/-- C9 witness: the amended theorem applied to a concrete automaton —
the new start state is not accepting. -/
theorem C9_witness : "i" ∉ (standardize exC9w).accept_states :=
  (C9_accept_not_transferred exC9w (by decide) ⟨"s0", by decide, by decide⟩ (by decide)).2.2

/-! ## C6: epsilon closure — soundness, closedness, completeness -/

/-- One epsilon edge of the automaton. -/
def EpsEdge (fa : FiniteAutomaton) (x y : String) : Prop :=
  y ∈ epsDests fa x

/-- Reachability along zero or more epsilon edges. -/
def EpsReach (fa : FiniteAutomaton) : String → String → Prop :=
  Relation.ReflTransGen (EpsEdge fa)

/-- Number of potential worklist additions not yet in the closure. -/
def countFree (u cl : List String) : Nat :=
  u.dedup.countP (fun x => decide (x ∉ cl))

lemma mem_epsfoldr_of_mem {d : String} :
    ∀ (l : List (String × List (String × List String))) (p : String × List (String × List String)),
      p ∈ l → d ∈ (dictGet p.2 epsilon).getD [] →
      d ∈ l.foldr (fun q acc => ((dictGet q.2 epsilon).getD []) ++ acc) [] := by
  intro l
  induction l with
  | nil => intro p hp; simp at hp
  | cons q rest ih =>
    intro p hp hd
    simp only [List.foldr_cons, List.mem_append]
    rcases List.mem_cons.mp hp with rfl | hp'
    · exact Or.inl hd
    · exact Or.inr (ih p hp' hd)

lemma epsDests_subset (fa : FiniteAutomaton) (s : String) :
    ∀ d ∈ epsDests fa s, d ∈ allEpsDests fa := by
  intro d hd
  unfold epsDests at hd
  cases hm : dictGet fa.transitions s with
  | none =>
    rw [hm] at hd
    simp [dictGet] at hd
  | some m =>
    rw [hm] at hd
    simp only [Option.getD_some] at hd
    exact mem_epsfoldr_of_mem fa.transitions (s, m) (dictGet_mem hm) hd

lemma ecPush_cl_mono :
    ∀ (ds cl st : List String) (a : String), a ∈ cl → a ∈ (ecPush cl st ds).1 := by
  intro ds
  induction ds with
  | nil => intro cl st a h; exact h
  | cons d rest ih =>
    intro cl st a h
    unfold ecPush
    split
    · exact ih cl st a h
    · exact ih (d :: cl) (d :: st) a (List.mem_cons_of_mem d h)

lemma ecPush_cl_super :
    ∀ (ds cl st : List String) (a : String), a ∈ ds → a ∈ (ecPush cl st ds).1 := by
  intro ds
  induction ds with
  | nil => intro cl st a h; simp at h
  | cons d rest ih =>
    intro cl st a h
    unfold ecPush
    rcases List.mem_cons.mp h with rfl | h'
    · split
      · next hd => exact ecPush_cl_mono rest cl st a hd
      · exact ecPush_cl_mono rest (a :: cl) (a :: st) a (List.mem_cons_self a cl)
    · split
      · exact ih cl st a h'
      · exact ih (d :: cl) (d :: st) a h'

lemma ecPush_cl_cases :
    ∀ (ds cl st : List String) (a : String), a ∈ (ecPush cl st ds).1 → a ∈ cl ∨ a ∈ ds := by
  intro ds
  induction ds with
  | nil => intro cl st a h; exact Or.inl h
  | cons d rest ih =>
    intro cl st a h
    unfold ecPush at h
    split at h
    · rcases ih cl st a h with h' | h'
      · exact Or.inl h'
      · exact Or.inr (List.mem_cons_of_mem d h')
    · rcases ih (d :: cl) (d :: st) a h with h' | h'
      · rcases List.mem_cons.mp h' with rfl | h''
        · exact Or.inr (List.mem_cons_self a rest)
        · exact Or.inl h''
      · exact Or.inr (List.mem_cons_of_mem d h')

lemma ecPush_st_mono :
    ∀ (ds cl st : List String) (a : String), a ∈ st → a ∈ (ecPush cl st ds).2 := by
  intro ds
  induction ds with
  | nil => intro cl st a h; exact h
  | cons d rest ih =>
    intro cl st a h
    unfold ecPush
    split
    · exact ih cl st a h
    · exact ih (d :: cl) (d :: st) a (List.mem_cons_of_mem d h)

lemma ecPush_cons (cl st : List String) (d : String) (ds : List String) :
    ecPush cl st (d :: ds) =
      if d ∈ cl then ecPush cl st ds else ecPush (d :: cl) (d :: st) ds := rfl

lemma ecPush_st_sub :
    ∀ (ds cl st : List String), (∀ a ∈ st, a ∈ cl) →
      ∀ a ∈ (ecPush cl st ds).2, a ∈ (ecPush cl st ds).1 := by
  intro ds
  induction ds with
  | nil => intro cl st hsub a h; exact hsub a h
  | cons d rest ih =>
    intro cl st hsub a h
    rw [ecPush_cons] at h ⊢
    by_cases hd : d ∈ cl
    · rw [if_pos hd] at h ⊢
      exact ih cl st hsub a h
    · rw [if_neg hd] at h ⊢
      refine ih (d :: cl) (d :: st) ?_ a h
      intro b hb
      rcases List.mem_cons.mp hb with rfl | hb'
      · exact List.mem_cons_self b cl
      · exact List.mem_cons_of_mem d (hsub b hb')

lemma ecPush_new_in_st :
    ∀ (ds cl st : List String) (a : String),
      a ∈ (ecPush cl st ds).1 → a ∈ cl ∨ a ∈ (ecPush cl st ds).2 := by
  intro ds
  induction ds with
  | nil => intro cl st a h; exact Or.inl h
  | cons d rest ih =>
    intro cl st a h
    rw [ecPush_cons] at h ⊢
    by_cases hd : d ∈ cl
    · rw [if_pos hd] at h ⊢
      exact ih cl st a h
    · rw [if_neg hd] at h ⊢
      rcases ih (d :: cl) (d :: st) a h with h' | h'
      · rcases List.mem_cons.mp h' with rfl | h''
        · exact Or.inr (ecPush_st_mono rest (a :: cl) (a :: st) a (List.mem_cons_self a st))
        · exact Or.inl h''
      · exact Or.inr h'

lemma countFree_cons {u cl : List String} {d : String} (hu : d ∈ u) (hcl : d ∉ cl) :
    countFree u (d :: cl) + 1 ≤ countFree u cl := by
  unfold countFree
  have hud : d ∈ u.dedup := List.mem_dedup.mpr hu
  generalize u.dedup = l at hud ⊢
  induction l with
  | nil => simp at hud
  | cons x xs ih =>
    rw [List.countP_cons, List.countP_cons]
    by_cases hx : x = d
    · subst hx
      have h1 : (decide (x ∉ x :: cl)) = false := by simp
      have h2 : (decide (x ∉ cl)) = true := by simp [hcl]
      rw [h1, h2]
      have hmono : xs.countP (fun y => decide (y ∉ x :: cl)) ≤
          xs.countP (fun y => decide (y ∉ cl)) := by
        refine List.countP_mono_left ?_
        intro y _ hy
        simp only [decide_eq_true_eq] at hy ⊢
        exact fun hmem => hy (List.mem_cons_of_mem x hmem)
      simp only [Bool.false_eq_true, if_false, if_true]
      omega
    · have hd' : d ∈ xs := by
        rcases List.mem_cons.mp hud with h | h
        · exact absurd h.symm hx
        · exact h
      have ihh := ih hd'
      have heq : (decide (x ∉ d :: cl)) = (decide (x ∉ cl)) := by
        simp only [List.mem_cons, decide_not]
        congr 1
        simp [hx]
      rw [heq]
      cases hb : decide (x ∉ cl)
      · simp only [Bool.false_eq_true, if_false]
        omega
      · simp only [if_true]
        omega

lemma ecPush_measure {u : List String} :
    ∀ (ds cl st : List String), (∀ d ∈ ds, d ∈ u) →
      (ecPush cl st ds).2.length + countFree u (ecPush cl st ds).1 ≤
        st.length + countFree u cl := by
  intro ds
  induction ds with
  | nil => intro cl st _; exact Nat.le_refl _
  | cons d rest ih =>
    intro cl st hsub
    have hsub' : ∀ d' ∈ rest, d' ∈ u := fun d' h => hsub d' (List.mem_cons_of_mem d h)
    unfold ecPush
    split
    · exact ih cl st hsub'
    · next hd =>
      have h1 := ih (d :: cl) (d :: st) hsub'
      have h2 := countFree_cons (hsub d (List.mem_cons_self d rest)) hd
      simp only [List.length_cons] at h1
      omega

lemma ecLoop_mono (fa : FiniteAutomaton) :
    ∀ (fuel : Nat) (cl st : List String) (a : String), a ∈ cl → a ∈ ecLoop fa fuel cl st := by
  intro fuel
  induction fuel with
  | zero => intro cl st a h; exact h
  | succ fuel ih =>
    intro cl st a h
    cases st with
    | nil => exact h
    | cons s rest =>
      show a ∈ ecLoop fa fuel (ecPush cl rest (epsDests fa s)).1 (ecPush cl rest (epsDests fa s)).2
      exact ih _ _ a (ecPush_cl_mono _ cl rest a h)

lemma ecLoop_sound (fa : FiniteAutomaton) (s0 : String) :
    ∀ (fuel : Nat) (cl st : List String),
      (∀ x ∈ cl, EpsReach fa s0 x) → (∀ x ∈ st, x ∈ cl) →
      ∀ x ∈ ecLoop fa fuel cl st, EpsReach fa s0 x := by
  intro fuel
  induction fuel with
  | zero => intro cl st hcl _ x hx; exact hcl x hx
  | succ fuel ih =>
    intro cl st hcl hst x hx
    cases st with
    | nil => exact hcl x hx
    | cons s rest =>
      have hs : EpsReach fa s0 s := hcl s (hst s (List.mem_cons_self s rest))
      refine ih (ecPush cl rest (epsDests fa s)).1 (ecPush cl rest (epsDests fa s)).2 ?_ ?_ x hx
      · intro y hy
        rcases ecPush_cl_cases _ cl rest y hy with h | h
        · exact hcl y h
        · exact hs.tail h
      · exact ecPush_st_sub _ cl rest (fun b hb => hst b (List.mem_cons_of_mem s hb))

lemma ecLoop_closed (fa : FiniteAutomaton) :
    ∀ (fuel : Nat) (cl st : List String),
      (∀ x ∈ cl, x ∈ st ∨ ∀ y ∈ epsDests fa x, y ∈ cl) →
      st.length + countFree (allEpsDests fa) cl ≤ fuel →
      ∀ x ∈ ecLoop fa fuel cl st, ∀ y ∈ epsDests fa x, y ∈ ecLoop fa fuel cl st := by
  intro fuel
  induction fuel with
  | zero =>
    intro cl st hinv hm x hx y hy
    have hst : st = [] := List.length_eq_zero.mp (by omega)
    subst hst
    rcases hinv x hx with h | h
    · simp at h
    · exact h y hy
  | succ fuel ih =>
    intro cl st hinv hm x hx y hy
    cases st with
    | nil =>
      rcases hinv x hx with h | h
      · simp at h
      · exact h y hy
    | cons s rest =>
      show y ∈ ecLoop fa fuel (ecPush cl rest (epsDests fa s)).1 (ecPush cl rest (epsDests fa s)).2
      have hm' : (ecPush cl rest (epsDests fa s)).2.length +
          countFree (allEpsDests fa) (ecPush cl rest (epsDests fa s)).1 ≤ fuel := by
        have := ecPush_measure (u := allEpsDests fa) (epsDests fa s) cl rest (epsDests_subset fa s)
        simp only [List.length_cons] at hm
        omega
      have hinv' : ∀ z ∈ (ecPush cl rest (epsDests fa s)).1,
          z ∈ (ecPush cl rest (epsDests fa s)).2 ∨
          ∀ w ∈ epsDests fa z, w ∈ (ecPush cl rest (epsDests fa s)).1 := by
        intro z hz
        rcases ecPush_new_in_st _ cl rest z hz with hzcl | hzst
        · rcases hinv z hzcl with hzst0 | hzclosed
          · rcases List.mem_cons.mp hzst0 with rfl | hzrest
            · exact Or.inr (fun w hw => ecPush_cl_super _ cl rest w hw)
            · exact Or.inl (ecPush_st_mono _ cl rest z hzrest)
          · exact Or.inr (fun w hw => ecPush_cl_mono _ cl rest w (hzclosed w hw))
        · exact Or.inl hzst
      exact ih _ _ hinv' hm' x hx y hy

lemma epsilon_closure_sound {fa : FiniteAutomaton} {s x : String}
    (h : x ∈ epsilon_closure fa s) : EpsReach fa s x := by
  refine ecLoop_sound fa s (ecFuel fa) [s] [s] ?_ (fun y hy => hy) x h
  intro y hy
  rcases List.mem_cons.mp hy with rfl | hy'
  · exact Relation.ReflTransGen.refl
  · simp at hy'

lemma epsilon_closure_refl (fa : FiniteAutomaton) (s : String) :
    s ∈ epsilon_closure fa s :=
  ecLoop_mono fa (ecFuel fa) [s] [s] s (List.mem_cons_self s [])

lemma epsilon_closure_closed {fa : FiniteAutomaton} {s : String} :
    ∀ x ∈ epsilon_closure fa s, ∀ y ∈ epsDests fa x, y ∈ epsilon_closure fa s := by
  refine ecLoop_closed fa (ecFuel fa) [s] [s] ?_ ?_
  · intro x hx
    exact Or.inl hx
  · show 1 + countFree (allEpsDests fa) [s] ≤ ecFuel fa
    unfold ecFuel countFree
    have h1 : (allEpsDests fa).dedup.countP (fun x => decide (x ∉ [s])) ≤
        (allEpsDests fa).dedup.length := List.countP_le_length _
    have h2 : (allEpsDests fa).dedup.length ≤ (allEpsDests fa).length :=
      (List.dedup_sublist _).length_le
    omega

lemma epsilon_closure_complete {fa : FiniteAutomaton} {s x : String}
    (h : EpsReach fa s x) : x ∈ epsilon_closure fa s := by
  induction h with
  | refl => exact epsilon_closure_refl fa s
  | tail hab hbc ih => exact epsilon_closure_closed _ ih _ hbc

/-- C6: the epsilon closure of any state contains that state, and it is
a fixed point — the closure of any member of the closure is contained in
it, so closing the closure again yields the same set. -/
theorem epsilon_closure_refl_and_fixed_point (fa : FiniteAutomaton) (s : String) :
    s ∈ epsilon_closure fa s ∧
    ∀ t ∈ epsilon_closure fa s, ∀ x ∈ epsilon_closure fa t, x ∈ epsilon_closure fa s :=
  ⟨epsilon_closure_refl fa s, fun t ht x hx =>
    epsilon_closure_complete ((epsilon_closure_sound ht).trans (epsilon_closure_sound hx))⟩

/-- A three-state epsilon chain a → b → c for the C6 witness. -/
def exC6 : FiniteAutomaton :=
  { states := ["a", "b", "c"], alphabet := ["Îµ"], start_state := ["a"], accept_states := [],
    transitions := [("a", [("Îµ", ["b"])]), ("b", [("Îµ", ["c"])])] }

/-- C6 witness: the fixed-point property applied at concrete states —
c is in the closure of b, which is in the closure of a, so c is in the
closure of a. -/
theorem epsilon_closure_witness : "c" ∈ epsilon_closure exC6 "a" :=
  (epsilon_closure_refl_and_fixed_point exC6 "a").2 "b" (by decide) "c" (by decide)

/-! ## C1/C3/C10: invariants of the determinization loop -/

lemma mem_dictSet {α β : Type} [DecidableEq α] :
    ∀ (d : List (α × β)) (k : α) (v : β) (p : α × β),
      p ∈ dictSet d k v → (p.1 = k ∧ p.2 = v) ∨ p ∈ d := by
  intro d k v p
  induction d with
  | nil =>
    intro h
    simp only [dictSet, List.mem_singleton] at h
    subst h
    exact Or.inl ⟨rfl, rfl⟩
  | cons q rest ih =>
    intro h
    unfold dictSet at h
    split at h
    · next he =>
      rcases List.mem_cons.mp h with rfl | h'
      · exact Or.inl ⟨he.symm, rfl⟩
      · exact Or.inr (List.mem_cons_of_mem q h')
    · rcases List.mem_cons.mp h with rfl | h'
      · exact Or.inr (List.mem_cons_self _ _)
      · rcases ih h' with h'' | h''
        · exact Or.inl h''
        · exact Or.inr (List.mem_cons_of_mem q h'')

/-- No state of the automaton has an epsilon entry in its symbol dict. -/
def NoEps (b : FiniteAutomaton) : Prop :=
  ∀ p ∈ b.transitions, containsKey p.2 epsilon = false

lemma noEps_add_transition {b : FiniteAutomaton} {f sym t : String}
    (hsym : sym ≠ epsilon) (hb : NoEps b) : NoEps (add_transition b f sym t) := by
  intro p hp
  unfold add_transition at hp
  rcases mem_dictSet _ _ _ p hp with ⟨h1, h2⟩ | hp'
  · rw [h2, containsKey_eq, dictGet_dictSet_ne _ _ _ _ (fun e => hsym e.symm)]
    cases hm : dictGet b.transitions f with
    | none => simp [dictGet]
    | some m =>
      have := hb (f, m) (dictGet_mem hm)
      rw [containsKey_eq] at this
      simpa using this
  · exact hb p hp'

lemma noEps_add_state {b : FiniteAutomaton} {s : String} (hb : NoEps b) :
    NoEps (add_state b s) :=
  fun p hp => hb p hp

lemma noEps_add_accept_state {b : FiniteAutomaton} {s : String} (hb : NoEps b) :
    NoEps (add_accept_state b s) :=
  fun p hp => hb p hp

lemma is_det_of_noEps_empty_alphabet {b : FiniteAutomaton}
    (ha : b.alphabet = []) (hb : NoEps b) : is_deterministic b = true := by
  unfold is_deterministic
  rw [List.all_eq_true]
  intro p hp
  rw [ha]
  simp [hb p hp]

lemma is_complete_empty_alphabet {b : FiniteAutomaton} (ha : b.alphabet = []) :
    is_complete b = true ↔ ∀ s ∈ b.states, (dictGet b.transitions s).isSome = true := by
  rw [is_complete_iff]
  constructor
  · exact fun h s hs => (h s hs).1
  · intro h s hs
    refine ⟨h s hs, fun a hA => ?_⟩
    rw [ha] at hA
    simp at hA

lemma natDigitsRevAux_ne_nil (fuel n : Nat) (h : 1 ≤ fuel) :
    natDigitsRevAux fuel n ≠ [] := by
  cases fuel with
  | zero => omega
  | succ f =>
    unfold natDigitsRevAux
    split
    · simp
    · simp

lemma natDigitsRev_ne_zero_list (n : Nat) (h : 1 ≤ n) : natDigitsRev n ≠ ['0'] := by
  unfold natDigitsRev natDigitsRevAux
  by_cases h10 : n < 10
  · rw [if_pos h10]
    intro he
    have he' : Nat.digitChar n = '0' := by
      simpa using he
    interval_cases n <;> exact absurd he' (by decide)
  · rw [if_neg h10]
    intro he
    have htail : natDigitsRevAux n (n / 10) = [] := by
      have := congrArg List.tail he
      simpa using this
    exact natDigitsRevAux_ne_nil n (n / 10) (by omega) htail

lemma stateName_ne_q0 {n : Nat} (h : 1 ≤ n) : stateName n ≠ "q0" := by
  unfold stateName natToStr
  intro he
  have hdata := congrArg String.data he
  simp only [String.data_append] at hdata
  have hrev : (natDigitsRev n).reverse = ['0'] := by
    simpa using hdata
  have : natDigitsRev n = ['0'] := by
    simpa using congrArg List.reverse hrev
  exact natDigitsRev_ne_zero_list n h this

lemma detStep_basic {fa : FiniteAutomaton} {closures : List (String × List String)}
    {cur : List String} {curName sym : String}
    {mapping : List (List String × String)} {qs : List (List String)}
    {acc : FiniteAutomaton}
    {res : List (List String × String) × List (List String) × FiniteAutomaton}
    (hres : detStep fa closures cur curName sym mapping qs acc = some res)
    (hlen : 1 ≤ mapping.length) (hq0 : "q0" ∉ acc.states)
    (hstart : acc.start_state = []) (halph : acc.alphabet = []) :
    1 ≤ res.1.length ∧ "q0" ∉ res.2.2.states ∧ res.2.2.start_state = [] ∧
      res.2.2.alphabet = [] := by
  simp only [detStep] at hres
  cases hexp : epsExpand closures
      (cur.foldl (fun ns s => listUnion ns (destinations fa s sym)) []) with
  | none =>
    rw [hexp] at hres
    simp at hres
  | some nextEps =>
    rw [hexp] at hres
    simp only [] at hres
    by_cases hempty : nextEps.isEmpty = true
    · rw [if_pos hempty] at hres
      injection hres with h
      subst h
      exact ⟨hlen, hq0, hstart, halph⟩
    · rw [if_neg hempty] at hres
      cases hkey : dictGet mapping (canon nextEps) with
      | some name =>
        rw [hkey] at hres
        simp only [] at hres
        injection hres with h
        subst h
        exact ⟨hlen, hq0, hstart, halph⟩
      | none =>
        rw [hkey] at hres
        simp only [] at hres
        injection hres with h
        subst h
        refine ⟨by simp, ?_, ?_, ?_⟩
        · show "q0" ∉ (add_transition _ curName sym _).states
          rw [add_transition_states]
          split
          · show "q0" ∉ (add_accept_state (add_state acc _) _).states
            rw [add_accept_state_states, add_state_states]
            rw [mem_setAdd]
            rintro (h | h)
            · exact hq0 h
            · exact stateName_ne_q0 hlen h.symm
          · show "q0" ∉ (add_state acc _).states
            rw [add_state_states, mem_setAdd]
            rintro (h | h)
            · exact hq0 h
            · exact stateName_ne_q0 hlen h.symm
        · show (add_transition _ curName sym _).start_state = []
          rw [add_transition_start]
          split
          · exact hstart
          · exact hstart
        · show (add_transition _ curName sym _).alphabet = []
          rw [add_transition_alphabet]
          split
          · exact halph
          · exact halph

lemma detStep_noEps {fa : FiniteAutomaton} {closures : List (String × List String)}
    {cur : List String} {curName sym : String}
    {mapping : List (List String × String)} {qs : List (List String)}
    {acc : FiniteAutomaton}
    {res : List (List String × String) × List (List String) × FiniteAutomaton}
    (hres : detStep fa closures cur curName sym mapping qs acc = some res)
    (hsym : sym ≠ epsilon) (hacc : NoEps acc) : NoEps res.2.2 := by
  simp only [detStep] at hres
  cases hexp : epsExpand closures
      (cur.foldl (fun ns s => listUnion ns (destinations fa s sym)) []) with
  | none =>
    rw [hexp] at hres
    simp at hres
  | some nextEps =>
    rw [hexp] at hres
    simp only [] at hres
    by_cases hempty : nextEps.isEmpty = true
    · rw [if_pos hempty] at hres
      injection hres with h
      subst h
      exact hacc
    · rw [if_neg hempty] at hres
      cases hkey : dictGet mapping (canon nextEps) with
      | some name =>
        rw [hkey] at hres
        simp only [] at hres
        injection hres with h
        subst h
        exact noEps_add_transition hsym hacc
      | none =>
        rw [hkey] at hres
        simp only [] at hres
        injection hres with h
        subst h
        refine noEps_add_transition hsym ?_
        split
        · exact noEps_add_accept_state (noEps_add_state hacc)
        · exact noEps_add_state hacc

lemma detSymbols_basic {fa : FiniteAutomaton} {closures : List (String × List String)}
    {cur : List String} {curName : String} :
    ∀ (syms : List String) (mapping : List (List String × String))
      (qs : List (List String)) (acc : FiniteAutomaton)
      (res : List (List String × String) × List (List String) × FiniteAutomaton),
      detSymbols fa closures cur curName mapping qs acc syms = some res →
      1 ≤ mapping.length → "q0" ∉ acc.states → acc.start_state = [] → acc.alphabet = [] →
      1 ≤ res.1.length ∧ "q0" ∉ res.2.2.states ∧ res.2.2.start_state = [] ∧
        res.2.2.alphabet = [] := by
  intro syms
  induction syms with
  | nil =>
    intro mapping qs acc res hres h1 h2 h3 h4
    unfold detSymbols at hres
    injection hres with h
    subst h
    exact ⟨h1, h2, h3, h4⟩
  | cons sym rest ih =>
    intro mapping qs acc res hres h1 h2 h3 h4
    unfold detSymbols at hres
    cases hstep : detStep fa closures cur curName sym mapping qs acc with
    | none => rw [hstep] at hres; simp at hres
    | some triple =>
      rw [hstep] at hres
      obtain ⟨m', q', a'⟩ := triple
      simp only [] at hres
      have hinv := detStep_basic hstep h1 h2 h3 h4
      exact ih m' q' a' res hres hinv.1 hinv.2.1 hinv.2.2.1 hinv.2.2.2

lemma detSymbols_noEps {fa : FiniteAutomaton} {closures : List (String × List String)}
    {cur : List String} {curName : String} :
    ∀ (syms : List String) (mapping : List (List String × String))
      (qs : List (List String)) (acc : FiniteAutomaton)
      (res : List (List String × String) × List (List String) × FiniteAutomaton),
      detSymbols fa closures cur curName mapping qs acc syms = some res →
      (∀ a ∈ syms, a ≠ epsilon) → NoEps acc → NoEps res.2.2 := by
  intro syms
  induction syms with
  | nil =>
    intro mapping qs acc res hres _ hacc
    unfold detSymbols at hres
    injection hres with h
    subst h
    exact hacc
  | cons sym rest ih =>
    intro mapping qs acc res hres hsyms hacc
    unfold detSymbols at hres
    cases hstep : detStep fa closures cur curName sym mapping qs acc with
    | none => rw [hstep] at hres; simp at hres
    | some triple =>
      rw [hstep] at hres
      obtain ⟨m', q', a'⟩ := triple
      simp only [] at hres
      have hne : sym ≠ epsilon := hsyms sym (List.mem_cons_self sym rest)
      have hinv := detStep_noEps hstep hne hacc
      exact ih m' q' a' res hres (fun a ha => hsyms a (List.mem_cons_of_mem sym ha)) hinv

lemma detLoop_basic {fa : FiniteAutomaton} {closures : List (String × List String)} :
    ∀ (fuel : Nat) (mapping : List (List String × String)) (qs : List (List String))
      (acc res : FiniteAutomaton),
      detLoop fa closures fuel mapping qs acc = some res →
      1 ≤ mapping.length → "q0" ∉ acc.states → acc.start_state = [] → acc.alphabet = [] →
      "q0" ∉ res.states ∧ res.start_state = [] ∧ res.alphabet = [] := by
  intro fuel
  induction fuel with
  | zero =>
    intro mapping qs acc res hres
    unfold detLoop at hres
    simp at hres
  | succ fuel ih =>
    intro mapping qs acc res hres h1 h2 h3 h4
    cases qs with
    | nil =>
      unfold detLoop at hres
      injection hres with h
      subst h
      exact ⟨h2, h3, h4⟩
    | cons cur rest =>
      unfold detLoop at hres
      cases hname : dictGet mapping cur with
      | none => rw [hname] at hres; simp at hres
      | some curName =>
        rw [hname] at hres
        simp only [] at hres
        cases hsyms : detSymbols fa closures cur curName mapping rest
            (if (cur.any fun s => decide (s ∈ fa.accept_states)) = true
             then add_accept_state acc curName else acc) fa.alphabet with
        | none => rw [hsyms] at hres; simp at hres
        | some triple =>
          rw [hsyms] at hres
          obtain ⟨m', q', a'⟩ := triple
          simp only [] at hres
          have hacc1 : "q0" ∉ (if (cur.any fun s => decide (s ∈ fa.accept_states)) = true
              then add_accept_state acc curName else acc).states := by
            split
            · exact h2
            · exact h2
          have hacc3 : (if (cur.any fun s => decide (s ∈ fa.accept_states)) = true
              then add_accept_state acc curName else acc).start_state = [] := by
            split
            · exact h3
            · exact h3
          have hacc4 : (if (cur.any fun s => decide (s ∈ fa.accept_states)) = true
              then add_accept_state acc curName else acc).alphabet = [] := by
            split
            · exact h4
            · exact h4
          have hinv := detSymbols_basic fa.alphabet mapping rest _ (m', q', a') hsyms h1 hacc1 hacc3 hacc4
          exact ih m' q' a' res hres hinv.1 hinv.2.1 hinv.2.2.1 hinv.2.2.2

lemma detLoop_noEps {fa : FiniteAutomaton} {closures : List (String × List String)}
    (hfa : ∀ a ∈ fa.alphabet, a ≠ epsilon) :
    ∀ (fuel : Nat) (mapping : List (List String × String)) (qs : List (List String))
      (acc res : FiniteAutomaton),
      detLoop fa closures fuel mapping qs acc = some res →
      NoEps acc → NoEps res := by
  intro fuel
  induction fuel with
  | zero =>
    intro mapping qs acc res hres
    unfold detLoop at hres
    simp at hres
  | succ fuel ih =>
    intro mapping qs acc res hres hacc
    cases qs with
    | nil =>
      unfold detLoop at hres
      injection hres with h
      subst h
      exact hacc
    | cons cur rest =>
      unfold detLoop at hres
      cases hname : dictGet mapping cur with
      | none => rw [hname] at hres; simp at hres
      | some curName =>
        rw [hname] at hres
        simp only [] at hres
        cases hsyms : detSymbols fa closures cur curName mapping rest
            (if (cur.any fun s => decide (s ∈ fa.accept_states)) = true
             then add_accept_state acc curName else acc) fa.alphabet with
        | none => rw [hsyms] at hres; simp at hres
        | some triple =>
          rw [hsyms] at hres
          obtain ⟨m', q', a'⟩ := triple
          simp only [] at hres
          have hacc' : NoEps (if (cur.any fun s => decide (s ∈ fa.accept_states)) = true
              then add_accept_state acc curName else acc) := by
            split
            · exact noEps_add_accept_state hacc
            · exact hacc
          have hinv := detSymbols_noEps fa.alphabet mapping rest _ (m', q', a') hsyms hfa hacc'
          exact ih m' q' a' res hres hinv

/-- A non-deterministic automaton whose alphabet contains the epsilon
symbol. -/
def exC1 : FiniteAutomaton :=
  { states := ["s0", "s1"], alphabet := ["Îµ"], start_state := ["s0"], accept_states := [],
    transitions := [("s0", [("Îµ", ["s1"])])] }

/-- C1 counterexample: when the epsilon symbol is a member of the
alphabet, `determinize` copies epsilon transitions into its result, and
the returned automaton is NOT deterministic. -/
theorem C1_counterexample :
    (determinize exC1).map is_deterministic = some false := by
  decide

/-- C1 (amended): for every automaton whose alphabet does not contain
the epsilon symbol, any automaton returned by `determinize` satisfies
`is_deterministic`. -/
theorem C1_determinize_deterministic (fa B : FiniteAutomaton)
    (heps : epsilon ∉ fa.alphabet)
    (hres : determinize fa = some B) :
    is_deterministic B = true := by
  simp only [determinize] at hres
  by_cases hdet : is_deterministic fa = true
  · rw [if_pos hdet] at hres
    injection hres with h
    subst h
    exact hdet
  · rw [if_neg hdet] at hres
    cases hstart : fa.start_state with
    | nil => rw [hstart] at hres; simp at hres
    | cons s0 rest =>
      rw [hstart] at hres
      simp only [] at hres
      cases hloop : detLoop fa (fa.states.map fun s => (s, epsilon_closure fa s)) (detFuel fa)
          [(canon (epsilon_closure fa s0), "q0")] [canon (epsilon_closure fa s0)] emptyFA with
      | none => rw [hloop] at hres; simp at hres
      | some acc =>
        rw [hloop] at hres
        simp only [] at hres
        injection hres with h
        subst h
        have hfa : ∀ a ∈ fa.alphabet, a ≠ epsilon := fun a ha he => heps (he ▸ ha)
        have hnoeps : NoEps acc :=
          detLoop_noEps hfa _ _ _ _ acc hloop (fun p hp => absurd hp (List.not_mem_nil p))
        have hbasic :=
          detLoop_basic _ _ _ _ acc hloop (by simp) (List.not_mem_nil _) rfl rfl
        refine is_det_of_noEps_empty_alphabet ?_ ?_
        · rw [add_start_state_alphabet]
          exact hbasic.2.2
        · exact fun p hp => hnoeps p hp

/-- A non-deterministic automaton (two destinations on "a") without
epsilon in its alphabet, for the C1 and C10 witnesses. -/
def exC1w : FiniteAutomaton :=
  { states := ["s0", "s1"], alphabet := ["a"], start_state := ["s0"], accept_states := ["s1"],
    transitions := [("s0", [("a", ["s0", "s1"])])] }

/-- C1 witness: the amended theorem applied to a concrete
non-deterministic epsilon-free automaton. -/
theorem C1_witness : is_deterministic ((determinize exC1w).getD emptyFA) = true :=
  C1_determinize_deterministic exC1w ((determinize exC1w).getD emptyFA) (by decide) rfl

/-- A non-deterministic automaton with an empty start-state set: the
input on which `determinize` raises `StopIteration` at
`next(iter(self.start_state))`. -/
def exC3 : FiniteAutomaton :=
  { states := ["s0", "s1"], alphabet := [], start_state := [], accept_states := [],
    transitions := [("s0", [("Îµ", ["s1"])])] }

/-- C3: `determinize` is not total — on a non-deterministic automaton
with zero start states it fails (`next(iter(set()))` raises
StopIteration), modelled as `none`. -/
theorem C3_determinize_fails : determinize exC3 = none := by
  rfl

/-- C10: when the input is not deterministic, the automaton returned by
`determinize` has start-state set exactly {"q0"}, yet "q0" is never
added to its states, its alphabet is empty, and consequently its
`is_complete` check degenerates to "every state has some transitions
entry" with no alphabet symbol involved. -/
theorem C10_determinize_skeleton (fa B : FiniteAutomaton)
    (hnd : is_deterministic fa = false)
    (hres : determinize fa = some B) :
    B.start_state = ["q0"] ∧ "q0" ∉ B.states ∧ B.alphabet = [] ∧
    (is_complete B = true ↔ ∀ s ∈ B.states, (dictGet B.transitions s).isSome = true) := by
  simp only [determinize] at hres
  rw [if_neg (by simp [hnd])] at hres
  cases hstart : fa.start_state with
  | nil => rw [hstart] at hres; simp at hres
  | cons s0 rest =>
    rw [hstart] at hres
    simp only [] at hres
    cases hloop : detLoop fa (fa.states.map fun s => (s, epsilon_closure fa s)) (detFuel fa)
        [(canon (epsilon_closure fa s0), "q0")] [canon (epsilon_closure fa s0)] emptyFA with
    | none => rw [hloop] at hres; simp at hres
    | some acc =>
      rw [hloop] at hres
      simp only [] at hres
      injection hres with h
      subst h
      have hbasic :=
        detLoop_basic _ _ _ _ acc hloop (by simp) (List.not_mem_nil _) rfl rfl
      have hstartB : (add_start_state acc "q0").start_state = ["q0"] := by
        rw [add_start_state_start, hbasic.2.1]
        rfl
      have halphB : (add_start_state acc "q0").alphabet = [] := by
        rw [add_start_state_alphabet]
        exact hbasic.2.2
      refine ⟨hstartB, ?_, halphB, is_complete_empty_alphabet halphB⟩
      rw [add_start_state_states]
      exact hbasic.1

/-- C10 witness: the theorem applied to the concrete non-deterministic
automaton `exC1w`. -/
theorem C10_witness : ((determinize exC1w).getD emptyFA).start_state = ["q0"] :=
  (C10_determinize_skeleton exC1w ((determinize exC1w).getD emptyFA) (by decide) rfl).1
